import Mathlib

/-!
Verification of the external-memory sorter in `src/main.rs` of bartossh/sorter.

The program reads an input file of newline-delimited decimal u64 values,
spills sorted batches to temporary partition files, and k-way merges the
partitions into the output file using a min-heap of (value, stream index)
pairs, deleting the partitions afterwards.

Shallow embedding conventions:
- u64 values are `Nat` together with an explicit `v < 2 ^ 64` bound where the
  range matters (`str::parse::<u64>` rejects out-of-range numerals).
- A partition file's contents are the list of its lines; `BufRead::lines`
  yields for each line either a string or an io error, embedded as `LineRead`.
- Fallible code returns `Except MergeErr`.
- `slice::sort_unstable` on `u64` is embedded as `List.insertionSort (le)`:
  on a linear order any comparison sort returns the unique sorted permutation
  of its input, so the two agree extensionally.
- `BinaryHeap<Reverse<(u64, usize)>>::pop` returns a minimal pair in the
  lexicographic order on `(u64, usize)`; it is embedded as `popMin`, which
  removes a minimal element. During the merge the heap never holds two
  entries with the same stream index, so the minimum popped is unique.
-/

namespace ExtSorter

/-- Upper bound of the u64 range: parsing fails at or above this value. -/
def U64_LIMIT : Nat := 2 ^ 64

/-! ## Decimal rendering and parsing

`writeln!(file, "{}", num)` renders a u64 in decimal; `line.parse::<u64>()`
accepts an optional leading plus sign followed by one or more decimal digits,
and fails on overflow. -/

/-- Little-endian decimal digits of `n`, with explicit structural fuel
(`decDigits` passes `n` itself, which is always enough). -/
def decDigitsAux : Nat → Nat → List Nat
  | 0, _ => []
  | fuel + 1, n => if n = 0 then [] else n % 10 :: decDigitsAux fuel (n / 10)

/-- Little-endian decimal digits of `n` (empty for 0). -/
def decDigits (n : Nat) : List Nat := decDigitsAux n n

/-- Decimal rendering of a `Nat`, as produced by Rust's `{}` formatting of u64. -/
def natDecimal (n : Nat) : String :=
  if n = 0 then "0" else String.mk ((decDigits n).reverse.map Nat.digitChar)

/-- Value of a decimal digit character, `none` for non-digits. -/
def digitVal? (c : Char) : Option Nat :=
  if 48 ≤ c.toNat ∧ c.toNat ≤ 57 then some (c.toNat - 48) else none

/-- Fold a digit-character list into a number, failing on any non-digit. -/
def parseDigitsAux (cs : List Char) : Option Nat :=
  cs.foldl (fun acc c => acc.bind fun a => (digitVal? c).map fun d => a * 10 + d)
    (some 0)

/-- Embedding of `str::parse::<u64>`: optional leading plus sign, then one or
more decimal digits, value below `2 ^ 64`. -/
def parseU64 (s : String) : Option Nat :=
  let cs := s.data
  let ds := if cs.head? = some '+' then cs.tail else cs
  if ds.isEmpty then none
  else
    match parseDigitsAux ds with
    | none => none
    | some v => if v < U64_LIMIT then some v else none

/-! ## The Sorter CLI struct and path naming -/

/-- The `Sorter` clap struct: input path, output path, batch size. -/
structure Sorter where
  input : String
  output : String
  batch : Nat
deriving DecidableEq

/-- The `TEMP_FILE_PREFIX` constant of the program. -/
def TEMP_FILE_PREFIX_STR : String := "sort_temp_file_"

/-- Embedding of `std::path::Path::parent` for Unix-style paths, as documented
for Rust's std: the path without its final component; `none` if the path
terminates in a root or is the empty string; in particular a one-component
relative path such as "out.txt" yields `some ""`. -/
def rustParent (p : String) : Option String :=
  let r := p.data.reverse.dropWhile (fun c => c = '/')
  if r.isEmpty then none
  else
    let r2 := r.dropWhile (fun c => c ≠ '/')
    if r2.isEmpty then some ""
    else
      let r3 := r2.dropWhile (fun c => c = '/')
      if r3.isEmpty then some "/" else some (String.mk r3.reverse)

/-- Embedding of `Sorter::get_temp_file_path`: if the output path has a parent
(per `Path::parent`), the partition path is
`format!("{}/{}{}.txt", parent.display(), TEMP_FILE_PREFIX, file_num)`,
otherwise `format!("{}{}.txt", TEMP_FILE_PREFIX, file_num)`. -/
def Sorter.get_temp_file_path (self : Sorter) (file_num : Nat) : String :=
  match rustParent self.output with
  | some parent => parent ++ "/" ++ TEMP_FILE_PREFIX_STR ++ natDecimal file_num ++ ".txt"
  | none => TEMP_FILE_PREFIX_STR ++ natDecimal file_num ++ ".txt"

/-- Embedding of `Sorter::sort_and_write_to_file`: sorts the batch in place
and writes it, one value per line, to the partition file at
`get_temp_file_path file_num`. The returned list is the file's contents;
the caller (`spillGo`) keeps partition `file_num` at position `file_num`
of its result, mirroring the sequentially incremented `file_counter`. -/
def Sorter.sort_and_write_to_file (_self : Sorter) (batch_sorted : List Nat) :
    List Nat :=
  List.insertionSort (· ≤ ·) batch_sorted

/-! ## The spill phase (the loop of `main`) -/

/-- The record-reading loop of `main`: push each value onto the buffer, flush
the sorted buffer to the next partition when `len >= batch` after a push, and
flush a final non-empty remainder after the input is exhausted. Returns the
partition contents in file-number order. -/
def spillGo (self : Sorter) : List Nat → List Nat → List (List Nat)
  | buf, [] => if buf.isEmpty then [] else [self.sort_and_write_to_file buf]
  | buf, n :: rest =>
    let buf2 := buf ++ [n]
    if buf2.length ≥ self.batch then
      self.sort_and_write_to_file buf2 :: spillGo self [] rest
    else
      spillGo self buf2 rest

/-! ## The merge phase (`Sorter::merge_files`)

Reading a line from a partition (`Lines::next`) yields `none` at
end-of-stream, `some (Err e)` on an io failure, or `some (Ok line)`. The
stream of one partition file is embedded as a `List LineRead`; reading
consumes the head. -/

/-- One result of `Lines::next` that is not end-of-stream. -/
inductive LineRead where
  | ok (line : String)
  | err
deriving DecidableEq

/-- Errors propagated out of `merge_files` with the `?` operator. -/
inductive MergeErr where
  | parseErr
  | deleteErr
deriving DecidableEq

/-- Observable outcome of a successful `merge_files` call: the lines written
to the output file, the partition paths deleted (in deletion order), and the
number of partition files opened. -/
structure MergeOutcome where
  output : List Nat
  deleted : List String
  opened : Nat
deriving DecidableEq

/-- Strict lexicographic order on heap entries, the order underlying
`BinaryHeap<Reverse<(u64, usize)>>`. -/
def pairLt (a b : Nat × Nat) : Bool :=
  a.1 < b.1 || (a.1 == b.1 && a.2 < b.2)

/-- Pop a minimal entry (`BinaryHeap::pop` on the reversed order). Returns the
popped entry and the remaining entries. -/
def popMin : List (Nat × Nat) → Option ((Nat × Nat) × List (Nat × Nat))
  | [] => none
  | x :: t =>
    match popMin t with
    | none => some (x, [])
    | some (m, t2) => if pairLt m x then some (m, x :: t2) else some (x, t)

theorem pairLt_irrefl (a : Nat × Nat) : pairLt a a = false := by
  simp [pairLt]

theorem pairLt_asymm {a b : Nat × Nat} (h : pairLt a b = true) : pairLt b a = false := by
  simp only [pairLt, Bool.or_eq_true, Bool.and_eq_true, decide_eq_true_eq,
    beq_iff_eq, Bool.or_eq_false_iff, Bool.and_eq_false_iff,
    decide_eq_false_iff_not, Nat.not_lt, beq_eq_false_iff_ne, ne_eq] at *
  omega

theorem pairLt_not_trans {a b c : Nat × Nat} (h1 : pairLt b a = false)
    (h2 : pairLt c b = false) : pairLt c a = false := by
  simp only [pairLt, Bool.or_eq_false_iff, Bool.and_eq_false_iff,
    decide_eq_false_iff_not, Nat.not_lt, beq_eq_false_iff_ne, ne_eq] at *
  omega

theorem popMin_none : ∀ (h : List (Nat × Nat)), popMin h = none ↔ h = [] := by
  intro h
  cases h with
  | nil => simp [popMin]
  | cons x t =>
    simp only [popMin]
    constructor
    · intro hc
      cases hm : popMin t with
      | none => simp [hm] at hc
      | some p =>
        obtain ⟨m, t2⟩ := p
        cases hlt : pairLt m x <;> simp [hm, hlt] at hc
    · intro hc; exact absurd hc (by simp)

theorem popMin_perm : ∀ (h : List (Nat × Nat)) (m : Nat × Nat) (t2 : List (Nat × Nat)),
    popMin h = some (m, t2) → h.Perm (m :: t2)
  | [], m, t2, hp => by simp [popMin] at hp
  | x :: t, m, t2, hp => by
    simp only [popMin] at hp
    cases hm : popMin t with
    | none =>
      simp only [hm, Option.some.injEq, Prod.mk.injEq] at hp
      obtain ⟨hm1, hm2⟩ := hp
      subst hm1; subst hm2
      have := (popMin_none t).mp hm
      subst this
      exact List.Perm.refl _
    | some p =>
      obtain ⟨m0, t0⟩ := p
      have ih := popMin_perm t m0 t0 hm
      cases hlt : pairLt m0 x with
      | true =>
        simp only [hm, hlt, if_true, Option.some.injEq, Prod.mk.injEq] at hp
        obtain ⟨hm1, hm2⟩ := hp
        subst hm1; subst hm2
        exact (List.Perm.cons x ih).trans (List.Perm.swap _ _ _)
      | false =>
        simp only [hm, hlt, Bool.false_eq_true, if_false, Option.some.injEq,
          Prod.mk.injEq] at hp
        obtain ⟨hm1, hm2⟩ := hp
        subst hm1; subst hm2
        exact List.Perm.refl _

theorem popMin_min : ∀ (h : List (Nat × Nat)) (m : Nat × Nat) (t2 : List (Nat × Nat)),
    popMin h = some (m, t2) → ∀ y ∈ h, pairLt y m = false
  | [], m, t2, hp => by simp [popMin] at hp
  | x :: t, m, t2, hp => by
    simp only [popMin] at hp
    cases hm : popMin t with
    | none =>
      simp only [hm, Option.some.injEq, Prod.mk.injEq] at hp
      obtain ⟨hm1, _⟩ := hp
      subst hm1
      have := (popMin_none t).mp hm
      subst this
      intro y hy
      simp only [List.mem_singleton] at hy
      subst hy
      exact pairLt_irrefl y
    | some p =>
      obtain ⟨m0, t0⟩ := p
      have ihmin := popMin_min t m0 t0 hm
      cases hlt : pairLt m0 x with
      | true =>
        simp only [hm, hlt, if_true, Option.some.injEq, Prod.mk.injEq] at hp
        obtain ⟨hm1, _⟩ := hp
        subst hm1
        intro y hy
        cases hy with
        | head => exact pairLt_asymm hlt
        | tail _ hyt => exact ihmin y hyt
      | false =>
        simp only [hm, hlt, Bool.false_eq_true, if_false, Option.some.injEq,
          Prod.mk.injEq] at hp
        obtain ⟨hm1, _⟩ := hp
        subst hm1
        intro y hy
        cases hy with
        | head => exact pairLt_irrefl _
        | tail _ hyt => exact pairLt_not_trans hlt (ihmin y hyt)

theorem popMin_mem (h : List (Nat × Nat)) (m : Nat × Nat) (t2 : List (Nat × Nat))
    (hp : popMin h = some (m, t2)) : m ∈ h :=
  (popMin_perm h m t2 hp).symm.subset (List.mem_cons_self m t2)

/-- From popped-minimality: the popped value is at most every heap value. -/
theorem popMin_fst_le (h : List (Nat × Nat)) (m : Nat × Nat) (t2 : List (Nat × Nat))
    (hp : popMin h = some (m, t2)) : ∀ y ∈ h, m.1 ≤ y.1 := by
  intro y hy
  have := popMin_min h m t2 hp y hy
  simp only [pairLt, Bool.or_eq_false_iff, Bool.and_eq_false_iff,
    decide_eq_false_iff_not, Nat.not_lt] at this
  exact this.1

/-- One iteration of the merge loop: pop the minimal (value, index) entry;
then read the next line from stream `idx` — on `Some(Ok(line))` parse it
(propagating a parse failure) and push the value back with the same index,
on `Some(Err(_))` or `None` push nothing. Returns `none` when the heap is
empty. -/
def mergeStep (streams : List (List LineRead)) (heap : List (Nat × Nat)) :
    Except MergeErr (Option ((Nat × Nat) × (List (List LineRead) × List (Nat × Nat)))) :=
  match popMin heap with
  | none => .ok none
  | some ((num, idx), h2) =>
    match streams.getD idx [] with
    | [] => .ok (some ((num, idx), (streams, h2)))
    | .err :: rest => .ok (some ((num, idx), (streams.set idx rest, h2)))
    | .ok line :: rest =>
      match parseU64 line with
      | none => .error .parseErr
      | some v => .ok (some ((num, idx), (streams.set idx rest, (v, idx) :: h2)))

/-- Termination measure of the merge loop: heap size plus unread lines. -/
def mergeMeasure (streams : List (List LineRead)) (heap : List (Nat × Nat)) : Nat :=
  heap.length + (streams.map List.length).sum

theorem getD_cons_zero {α : Type} (a : α) (l : List α) (d : α) :
    (a :: l).getD 0 d = a := rfl

theorem getD_cons_succ {α : Type} (a : α) (l : List α) (i : Nat) (d : α) :
    (a :: l).getD (i + 1) d = l.getD i d := rfl

theorem getD_len_le {α : Type} : ∀ (l : List α) (i : Nat) (d : α),
    l.length ≤ i → l.getD i d = d
  | [], _, _, _ => rfl
  | _ :: t, i + 1, d, h => getD_len_le t i d (Nat.le_of_succ_le_succ h)

theorem set_len_le {α : Type} : ∀ (l : List α) (i : Nat) (x : α),
    l.length ≤ i → l.set i x = l
  | [], _, _, _ => rfl
  | _ :: _, i + 1, x, h => by
    simp only [List.set]
    exact congrArg _ (set_len_le _ i x (Nat.le_of_succ_le_succ h))

theorem getD_set_eq {α : Type} : ∀ (l : List α) (i : Nat) (x d : α),
    i < l.length → (l.set i x).getD i d = x
  | _ :: _, 0, _, _, _ => rfl
  | _ :: t, i + 1, x, d, h => getD_set_eq t i x d (Nat.lt_of_succ_lt_succ h)

theorem getD_set_ne {α : Type} : ∀ (l : List α) (i j : Nat) (x d : α),
    i ≠ j → (l.set i x).getD j d = l.getD j d
  | [], _, _, _, _, _ => rfl
  | _ :: _, 0, 0, _, _, h => absurd rfl h
  | _ :: _, 0, _ + 1, _, _, _ => rfl
  | _ :: _, _ + 1, 0, _, _, _ => rfl
  | _ :: t, i + 1, j + 1, x, d, h =>
    getD_set_ne t i j x d (fun he => h (congrArg Nat.succ he))

theorem sum_lengths_set : ∀ (streams : List (List LineRead)) (i : Nat)
    (c : LineRead) (rest : List LineRead),
    streams.getD i [] = c :: rest →
    (((streams.set i rest).map List.length).sum + 1 = (streams.map List.length).sum)
  | [], i, c, rest, h => by
    rw [getD_len_le [] i [] (Nat.zero_le i)] at h
    exact absurd h (by simp)
  | s :: t, 0, c, rest, h => by
    have hs : s = c :: rest := h
    subst hs
    simp only [List.set, List.map_cons, List.sum_cons, List.length_cons]
    omega
  | s :: t, i + 1, c, rest, h => by
    have ih := sum_lengths_set t i c rest h
    simp only [List.set, List.map_cons, List.sum_cons]
    omega

theorem mergeStep_measure (streams : List (List LineRead)) (heap : List (Nat × Nat))
    (e : Nat × Nat) (streams2 : List (List LineRead)) (heap2 : List (Nat × Nat))
    (h : mergeStep streams heap = .ok (some (e, (streams2, heap2)))) :
    mergeMeasure streams2 heap2 < mergeMeasure streams heap := by
  cases hpop : popMin heap with
  | none => simp [mergeStep, hpop] at h
  | some p =>
    obtain ⟨⟨num, idx⟩, h2⟩ := p
    have hlen : heap.length = h2.length + 1 := by
      have hp2 := (popMin_perm heap (num, idx) h2 hpop).length_eq
      simpa using hp2
    cases hs : streams.getD idx [] with
    | nil =>
      simp only [mergeStep, hpop, hs, Except.ok.injEq, Option.some.injEq,
        Prod.mk.injEq] at h
      obtain ⟨_, hst, hhp⟩ := h
      subst hst; subst hhp
      unfold mergeMeasure
      omega
    | cons c rest =>
      cases c with
      | err =>
        simp only [mergeStep, hpop, hs, Except.ok.injEq, Option.some.injEq,
          Prod.mk.injEq] at h
        obtain ⟨_, hst, hhp⟩ := h
        subst hst; subst hhp
        have hsum := sum_lengths_set streams idx .err rest hs
        unfold mergeMeasure
        omega
      | ok line =>
        cases hp : parseU64 line with
        | none =>
          simp only [mergeStep, hpop, hs, hp] at h
          exact absurd h (fun hc => Except.noConfusion hc)
        | some v =>
          simp only [mergeStep, hpop, hs, hp, Except.ok.injEq, Option.some.injEq,
            Prod.mk.injEq] at h
          obtain ⟨_, hst, hhp⟩ := h
          subst hst; subst hhp
          have hsum := sum_lengths_set streams idx (.ok line) rest hs
          unfold mergeMeasure
          simp only [List.length_cons]
          omega

/-- The `while let Some(item) = heap.pop()` loop of `merge_files`: repeatedly
pop the minimum, write its value to the output file (accumulated in `out`),
and advance the popped entry's stream. -/
def mergeLoop (streams : List (List LineRead)) (heap : List (Nat × Nat))
    (out : List Nat) : Except MergeErr (List Nat) :=
  match hstep : mergeStep streams heap with
  | .error e => .error e
  | .ok none => .ok out
  | .ok (some ((num, _), (streams2, heap2))) => mergeLoop streams2 heap2 (out ++ [num])
termination_by mergeMeasure streams heap
decreasing_by exact mergeStep_measure streams heap _ streams2 heap2 hstep

/-- The priming loop of `merge_files`: for each reader in index order
(`idx` counts from `idx0`), read its first line; push (value, idx) if the
line is present and parses (a parse failure propagates), push nothing on
end-of-stream or a read error. Returns the heap entries in push order and
the advanced streams. -/
def primeHeap : Nat → List (List LineRead) →
    Except MergeErr (List (Nat × Nat) × List (List LineRead))
  | _, [] => .ok ([], [])
  | idx, s :: rest =>
    match s with
    | [] => do
      let (h, ss) ← primeHeap (idx + 1) rest
      .ok (h, [] :: ss)
    | .err :: tail => do
      let (h, ss) ← primeHeap (idx + 1) rest
      .ok (h, tail :: ss)
    | .ok line :: tail =>
      match parseU64 line with
      | none => .error .parseErr
      | some v => do
        let (h, ss) ← primeHeap (idx + 1) rest
        .ok ((v, idx) :: h, tail :: ss)

/-- The cleanup loop of `merge_files`: `std::fs::remove_file` each partition
path in index order, propagating the first failure with `?`. The `delOk`
oracle says whether deleting a given path succeeds. Returns the deleted
paths in order. -/
def deleteRange (self : Sorter) (delOk : String → Bool) :
    List Nat → Except MergeErr (List String)
  | [] => .ok []
  | i :: rest =>
    let p := self.get_temp_file_path i
    if delOk p then do
      let ps ← deleteRange self delOk rest
      .ok (p :: ps)
    else .error .deleteErr

/-- Embedding of `Sorter::merge_files`. If `files_num == 0`, create the empty
output file and return. Otherwise open all partitions (their line streams are
supplied by `readFile`; `File::open` panics rather than erroring on failure,
so opening is total here), prime the heap, create the output file, run the
merge loop, and delete all partition files. -/
def Sorter.merge_files (self : Sorter) (files_num : Nat)
    (readFile : Nat → List LineRead) (delOk : String → Bool) :
    Except MergeErr MergeOutcome :=
  if files_num = 0 then .ok ⟨[], [], 0⟩
  else do
    let streams := (List.range files_num).map readFile
    let (heap, streams2) ← primeHeap 0 streams
    let out ← mergeLoop streams2 heap []
    let deleted ← deleteRange self delOk (List.range files_num)
    .ok ⟨out, deleted, files_num⟩

/-! ## The whole program (`main`) -/

/-- The parse step of `main`'s input loop: each input line must parse as u64,
a failure propagating with `?`. -/
def parseAll : List String → Except MergeErr (List Nat)
  | [] => .ok []
  | l :: rest =>
    match parseU64 l with
    | none => .error .parseErr
    | some v => do
      let vs ← parseAll rest
      .ok (v :: vs)

/-- A value written with `writeln!` and read back by `lines()` is one `Ok`
line holding its decimal rendering. -/
def okLine (v : Nat) : LineRead := .ok (natDecimal v)

/-- Embedding of `main` from parsed command line to the merge outcome: parse
the input lines, spill batches to partitions, then merge. Partition `i`,
written by the spill phase, is read back during the merge as the decimal
renderings of its values, in order. -/
def runMain (self : Sorter) (inputLines : List String) (delOk : String → Bool) :
    Except MergeErr MergeOutcome := do
  let nums ← parseAll inputLines
  let parts := spillGo self [] nums
  self.merge_files parts.length
    (fun i => (parts.getD i []).map okLine) delOk

/-! ## Round trip: a value written with `writeln!` parses back to itself -/

theorem decDigitsAux_lt_ten : ∀ (fuel n : Nat), ∀ d ∈ decDigitsAux fuel n, d < 10 := by
  intro fuel
  induction fuel with
  | zero => intro n d hd; simp [decDigitsAux] at hd
  | succ fuel ih =>
    intro n d hd
    by_cases h0 : n = 0
    · simp [decDigitsAux, h0] at hd
    · simp only [decDigitsAux, h0, if_false, List.mem_cons] at hd
      cases hd with
      | inl he => subst he; exact Nat.mod_lt n (by norm_num)
      | inr ht => exact ih (n / 10) d ht

theorem decDigitsAux_foldl : ∀ (fuel n a : Nat), n ≤ fuel →
    List.foldl (fun acc d => acc * 10 + d) a (decDigitsAux fuel n).reverse
      = a * 10 ^ (decDigitsAux fuel n).length + n := by
  intro fuel
  induction fuel with
  | zero =>
    intro n a hf
    have h0 : n = 0 := Nat.le_zero.mp hf
    subst h0
    simp [decDigitsAux]
  | succ fuel ih =>
    intro n a hf
    by_cases h0 : n = 0
    · subst h0; simp [decDigitsAux]
    · have hrec : n / 10 ≤ fuel := by
        have hlt : n / 10 < n := Nat.div_lt_self (Nat.pos_of_ne_zero h0) (by norm_num)
        omega
      simp only [decDigitsAux, h0, if_false, List.reverse_cons, List.foldl_append,
        List.length_cons]
      rw [ih (n / 10) a hrec]
      have hmod := Nat.div_add_mod n 10
      have hpow : (10 : Nat) ^ ((decDigitsAux fuel (n / 10)).length + 1)
          = 10 ^ (decDigitsAux fuel (n / 10)).length * 10 := pow_succ 10 _
      simp only [List.foldl_cons, List.foldl_nil]
      rw [hpow]
      ring_nf
      omega

theorem decDigits_ne_nil (n : Nat) (h : n ≠ 0) : decDigits n ≠ [] := by
  unfold decDigits
  cases n with
  | zero => exact absurd rfl h
  | succ m => simp [decDigitsAux]

theorem digitVal?_digitChar (d : Nat) (h : d < 10) :
    digitVal? (Nat.digitChar d) = some d := by
  interval_cases d <;> rfl

theorem digitChar_ne_plus (d : Nat) (h : d < 10) : Nat.digitChar d ≠ '+' := by
  interval_cases d <;> decide

theorem parseDigitsAux_map : ∀ (ds : List Nat) (a : Nat), (∀ d ∈ ds, d < 10) →
    List.foldl (fun acc c => acc.bind fun x => (digitVal? c).map fun d => x * 10 + d)
        (some a) (ds.map Nat.digitChar)
      = some (List.foldl (fun acc d => acc * 10 + d) a ds) := by
  intro ds
  induction ds with
  | nil => intro a _; rfl
  | cons d t ih =>
    intro a hlt
    have hd : d < 10 := hlt d (List.mem_cons_self d t)
    simp only [List.map_cons, List.foldl_cons, Option.bind_some,
      digitVal?_digitChar d hd, Option.map_some]
    exact ih (a * 10 + d) (fun x hx => hlt x (List.mem_cons_of_mem d hx))

theorem parseU64_natDecimal (n : Nat) (h : n < U64_LIMIT) :
    parseU64 (natDecimal n) = some n := by
  by_cases h0 : n = 0
  · subst h0; decide
  · obtain ⟨d, ds2, hds⟩ : ∃ d ds2, (decDigits n).reverse = d :: ds2 := by
      cases hr : (decDigits n).reverse with
      | nil => exact absurd (List.reverse_eq_nil_iff.mp hr) (decDigits_ne_nil n h0)
      | cons d ds2 => exact ⟨d, ds2, rfl⟩
    have hmem : ∀ x ∈ (decDigits n).reverse, x < 10 := by
      intro x hx
      exact decDigitsAux_lt_ten n n x (List.mem_reverse.mp hx)
    have hdlt : d < 10 := hmem d (hds ▸ List.mem_cons_self d ds2)
    unfold natDecimal
    rw [if_neg h0]
    unfold parseU64
    have hdata : (String.mk ((decDigits n).reverse.map Nat.digitChar)).data
        = (decDigits n).reverse.map Nat.digitChar := rfl
    simp only [hdata, hds, List.map_cons]
    have hplus : ¬((Nat.digitChar d :: List.map Nat.digitChar ds2).head? = some '+') := by
      simp only [List.head?_cons, Option.some.injEq]
      exact digitChar_ne_plus d hdlt
    rw [if_neg hplus]
    rw [if_neg (by simp)]
    have hfold := parseDigitsAux_map (d :: ds2) 0 (by rw [← hds]; exact hmem)
    simp only [List.map_cons] at hfold
    unfold parseDigitsAux
    rw [hfold]
    have hval : List.foldl (fun acc d => acc * 10 + d) 0 (d :: ds2) = n := by
      have hv := decDigitsAux_foldl n n 0 (Nat.le_refl n)
      unfold decDigits at hds
      rw [hds] at hv
      simpa using hv
    rw [hval]
    simp only [h, if_true]

/-! ## Merge-loop invariant -/

/-- A stream suffix that the merge can only ever see as end-of-stream: either
truly exhausted, or positioned at a read error (which `if let Some(Ok(..))`
silently treats as end-of-stream). -/
def goodTailB : List LineRead → Bool
  | [] => true
  | .err :: _ => true
  | .ok _ :: _ => false

/-- The line stream `s` holds exactly the sorted u64 values `vs` (as decimal
lines), followed by nothing or by a read error. Partition files written by
the spill phase have this shape with an empty tail. -/
def StreamOK (s : List LineRead) (vs : List Nat) : Prop :=
  s.take vs.length = vs.map okLine ∧ goodTailB (s.drop vs.length) = true ∧
    List.Sorted (· ≤ ·) vs ∧ ∀ v ∈ vs, v < U64_LIMIT

instance streamOK_decidable (s : List LineRead) (vs : List Nat) :
    Decidable (StreamOK s vs) := by
  unfold StreamOK
  infer_instance

theorem StreamOK_nil {s : List LineRead} (h : StreamOK s []) : goodTailB s = true := by
  have := h.2.1
  simpa using this

theorem StreamOK_cons {s : List LineRead} {v : Nat} {r : List Nat}
    (h : StreamOK s (v :: r)) :
    ∃ t, s = okLine v :: t ∧ StreamOK t r ∧ v < U64_LIMIT ∧ ∀ x ∈ r, v ≤ x := by
  obtain ⟨htake, hdrop, hsort, hbound⟩ := h
  cases s with
  | nil => simp [List.take] at htake
  | cons a t =>
    simp only [List.length_cons, List.take_succ_cons, List.map_cons,
      List.cons.injEq] at htake
    obtain ⟨ha, htake2⟩ := htake
    subst ha
    have hdrop2 : goodTailB (t.drop r.length) = true := by
      simpa [List.drop_succ_cons] using hdrop
    have hs := List.sorted_cons.mp hsort
    exact ⟨t, rfl,
      ⟨htake2, hdrop2, hs.2, fun x hx => hbound x (List.mem_cons_of_mem v hx)⟩,
      hbound v (List.mem_cons_self v r), hs.1⟩

theorem join_eq_nil_of_getD : ∀ (l : List (List Nat)),
    (∀ i, i < l.length → l.getD i [] = []) → l.join = []
  | [], _ => rfl
  | a :: t, h => by
    have ha : a = [] := h 0 (Nat.succ_pos _)
    have ht := join_eq_nil_of_getD t (fun i hi => h (i + 1) (Nat.succ_lt_succ hi))
    simp [ha, ht]

theorem set_nil_of_getD_nil : ∀ (l : List (List Nat)) (i : Nat),
    l.getD i [] = [] → l.set i [] = l
  | [], _, _ => rfl
  | a :: t, 0, h => by
    have ha : a = [] := h
    simp [List.set, ha]
  | a :: t, i + 1, h => by
    simp only [List.set]
    exact congrArg _ (set_nil_of_getD_nil t i h)

theorem join_set_cons : ∀ (l : List (List Nat)) (i : Nat) (y : Nat) (r : List Nat),
    l.getD i [] = y :: r → l.join.Perm (y :: (l.set i r).join)
  | [], i, y, r, h => by
    rw [getD_len_le [] i [] (Nat.zero_le i)] at h
    exact absurd h (by simp)
  | a :: t, 0, y, r, h => by
    have ha : a = y :: r := h
    subst ha
    simp only [List.join, List.set, List.cons_append]
    exact List.Perm.refl _
  | a :: t, i + 1, y, r, h => by
    have ih := join_set_cons t i y r h
    simp only [List.join, List.set]
    exact (List.Perm.append_left a ih).trans List.perm_middle

/-- Appending one upper bound to a sorted list keeps it sorted. -/
theorem sorted_append_singleton {out : List Nat} {v : Nat}
    (h1 : List.Sorted (· ≤ ·) out) (h2 : ∀ x ∈ out, x ≤ v) :
    List.Sorted (· ≤ ·) (out ++ [v]) := by
  rw [List.Sorted, List.pairwise_append]
  exact ⟨h1, List.pairwise_singleton _ _,
    fun x hx y hy => by
      simp only [List.mem_singleton] at hy
      subst hy
      exact h2 x hx⟩

/-- The merge-loop invariant: the unwritten values are exactly the heap
entries plus the remaining values `rem i` of each stream; the heap holds at
most one entry per stream index; an entry is a lower bound of its stream's
remaining values; a stream with no heap entry has no remaining values; the
output written so far is sorted and bounded by every heap entry. -/
def MergeInv (streams : List (List LineRead)) (heap : List (Nat × Nat))
    (out : List Nat) (rem : List (List Nat)) : Prop :=
  rem.length = streams.length ∧
  (heap.map Prod.snd).Nodup ∧
  (∀ e ∈ heap, e.2 < streams.length ∧
      StreamOK (streams.getD e.2 []) (rem.getD e.2 []) ∧
      ∀ x ∈ rem.getD e.2 [], e.1 ≤ x) ∧
  (∀ i, i < streams.length → (∀ e ∈ heap, e.2 ≠ i) → rem.getD i [] = []) ∧
  List.Sorted (· ≤ ·) out ∧
  (∀ x ∈ out, ∀ e ∈ heap, x ≤ e.1)

instance mergeInv_decidable (streams : List (List LineRead)) (heap : List (Nat × Nat))
    (out : List Nat) (rem : List (List Nat)) : Decidable (MergeInv streams heap out rem) := by
  unfold MergeInv
  infer_instance

/-- The pop-write-refill step preserves the merge invariant; the popped value
is a lower bound of every heap entry and every remaining stream value. -/
theorem mergeStep_inv (streams : List (List LineRead)) (heap : List (Nat × Nat))
    (out : List Nat) (rem : List (List Nat)) (v i : Nat) (h2 : List (Nat × Nat))
    (hinv : MergeInv streams heap out rem)
    (hpop : popMin heap = some ((v, i), h2)) :
    ∃ streams2 heap2,
      mergeStep streams heap = .ok (some ((v, i), (streams2, heap2))) ∧
      streams2.length = streams.length ∧
      MergeInv streams2 heap2 (out ++ [v]) (rem.set i ((rem.getD i []).tail)) ∧
      (heap.map Prod.fst ++ rem.join).Perm
        (v :: (heap2.map Prod.fst ++ (rem.set i ((rem.getD i []).tail)).join)) ∧
      (∀ e ∈ heap, v ≤ e.1) ∧
      (∀ j, ∀ x ∈ rem.getD j [], v ≤ x) := by
  obtain ⟨hlen, hnodup, hentry, hexh, hsortout, houtle⟩ := hinv
  have hmem : (v, i) ∈ heap := popMin_mem heap (v, i) h2 hpop
  have hperm : heap.Perm ((v, i) :: h2) := popMin_perm heap (v, i) h2 hpop
  have hminfst : ∀ y ∈ heap, v ≤ y.1 := popMin_fst_le heap (v, i) h2 hpop
  obtain ⟨hilt, hsok, hle⟩ := hentry (v, i) hmem
  have hnodup2 : (((v, i) :: h2).map Prod.snd).Nodup :=
    ((hperm.map Prod.snd).nodup_iff).mp hnodup
  have hnotin : i ∉ h2.map Prod.snd := by
    have := hnodup2
    simp only [List.map_cons, List.nodup_cons] at this
    exact this.1
  have hnodup3 : (h2.map Prod.snd).Nodup := by
    have := hnodup2
    simp only [List.map_cons, List.nodup_cons] at this
    exact this.2
  have hih2 : ∀ e ∈ h2, e ∈ heap := fun e he =>
    hperm.symm.subset (List.mem_cons_of_mem _ he)
  have hne_i : ∀ e ∈ h2, e.2 ≠ i := by
    intro e he hei
    exact hnotin (List.mem_map.mpr ⟨e, he, hei⟩)
  have hheapj : ∀ j, (∀ e ∈ h2, e.2 ≠ j) → i ≠ j → ∀ e ∈ heap, e.2 ≠ j := by
    intro j hj hij e he
    rcases List.mem_cons.mp ((hperm.mem_iff).mp he) with hec | he2
    · rw [hec]; exact hij
    · exact hj e he2
  have hminrem : ∀ j, ∀ x ∈ rem.getD j [], v ≤ x := by
    intro j x hx
    by_cases hj : j < streams.length
    · by_cases hej : ∃ e ∈ heap, e.2 = j
      · obtain ⟨e, he, hejq⟩ := hej
        have h3 := (hentry e he).2.2
        rw [hejq] at h3
        exact le_trans (hminfst e he) (h3 x hx)
      · push_neg at hej
        rw [hexh j hj hej] at hx
        exact absurd hx (List.not_mem_nil x)
    · rw [getD_len_le rem j [] (by omega)] at hx
      exact absurd hx (List.not_mem_nil x)
  have houtv : ∀ x ∈ out, x ≤ v := fun x hx => houtle x hx (v, i) hmem
  cases hri : rem.getD i [] with
  | nil =>
    have hremset : rem.set i (([] : List Nat).tail) = rem := by
      simpa using set_nil_of_getD_nil rem i hri
    rw [hri] at hsok
    have hgt : goodTailB (streams.getD i []) = true := StreamOK_nil hsok
    have hinv2 : ∀ (streams2 : List (List LineRead)),
        streams2.length = streams.length →
        (∀ e ∈ h2, streams2.getD e.2 [] = streams.getD e.2 []) →
        MergeInv streams2 h2 (out ++ [v]) rem := by
      intro streams2 hlen2 hsame
      refine ⟨by omega, hnodup3, ?_, ?_, sorted_append_singleton hsortout houtv, ?_⟩
      · intro e he
        obtain ⟨h1e, h2e, h3e⟩ := hentry e (hih2 e he)
        exact ⟨by omega, by rw [hsame e he]; exact h2e, h3e⟩
      · intro j hj hj2
        by_cases hij : i = j
        · rw [← hij]; exact hri
        · exact hexh j (by omega) (hheapj j hj2 hij)
      · intro x hx e he
        rcases List.mem_append.mp hx with hxo | hxv
        · exact houtle x hxo e (hih2 e he)
        · simp only [List.mem_singleton] at hxv
          subst hxv
          exact hminfst e (hih2 e he)
    have hpermout : (heap.map Prod.fst ++ rem.join).Perm
        (v :: (h2.map Prod.fst ++ rem.join)) :=
      (hperm.map Prod.fst).append_right rem.join
    cases hstream : streams.getD i [] with
    | nil =>
      refine ⟨streams, h2, ?_, rfl, ?_, ?_, hminfst, hminrem⟩
      · simp only [mergeStep, hpop, hstream]
      · rw [hremset]
        exact hinv2 streams rfl (fun _ _ => rfl)
      · rw [hremset]
        exact hpermout
    | cons c tail0 =>
      cases c with
      | ok line =>
        rw [hstream] at hgt
        exact absurd hgt (by simp [goodTailB])
      | err =>
        refine ⟨streams.set i tail0, h2, ?_, by simp, ?_, ?_, hminfst, hminrem⟩
        · simp only [mergeStep, hpop, hstream]
        · rw [hremset]
          exact hinv2 (streams.set i tail0) (by simp)
            (fun e he => getD_set_ne streams i e.2 tail0 []
              (fun hie => (hne_i e he) hie.symm))
        · rw [hremset]
          exact hpermout
  | cons w r =>
    rw [hri] at hsok
    obtain ⟨t, hst, hsokt, hwlt, hwle⟩ := StreamOK_cons hsok
    have hvw : v ≤ w := by
      have := hle
      rw [hri] at this
      exact this w (List.mem_cons_self w r)
    have hremlen : i < rem.length := by
      by_contra hcon
      rw [getD_len_le rem i [] (by omega)] at hri
      exact absurd hri (by simp)
    have hilt2 : i < streams.length := hilt
    refine ⟨streams.set i t, (w, i) :: h2, ?_, by simp, ?_, ?_, hminfst, hminrem⟩
    · simp only [mergeStep, hpop, hst, okLine, parseU64_natDecimal w hwlt]
    · refine ⟨by simp [hlen], ?_, ?_, ?_,
        sorted_append_singleton hsortout houtv, ?_⟩
      · simpa using hnodup2
      · intro e he
        rcases List.mem_cons.mp he with hec | he2
        · subst hec
          refine ⟨by simpa using hilt2, ?_, ?_⟩
          · rw [getD_set_eq streams i t [] hilt2,
              getD_set_eq rem i (w :: r).tail [] hremlen]
            exact hsokt
          · rw [getD_set_eq rem i (w :: r).tail [] hremlen]
            exact hwle
        · obtain ⟨h1e, h2e, h3e⟩ := hentry e (hih2 e he2)
          have hne := hne_i e he2
          refine ⟨by simpa using h1e, ?_, ?_⟩
          · rw [getD_set_ne streams i e.2 t [] (fun hie => hne hie.symm),
              getD_set_ne rem i e.2 (w :: r).tail [] (fun hie => hne hie.symm)]
            exact h2e
          · rw [getD_set_ne rem i e.2 (w :: r).tail [] (fun hie => hne hie.symm)]
            exact h3e
      · intro j hj hj2
        have hij : i ≠ j := fun hie => hj2 (w, i) (List.mem_cons_self _ _) hie
        rw [getD_set_ne rem i j (w :: r).tail [] hij]
        exact hexh j (by simpa using hj)
          (hheapj j (fun e he => hj2 e (List.mem_cons_of_mem _ he)) hij)
      · intro x hx e he
        rcases List.mem_append.mp hx with hxo | hxv
        · rcases List.mem_cons.mp he with hec | he2
          · subst hec
            exact le_trans (houtv x hxo) hvw
          · exact houtle x hxo e (hih2 e he2)
        · simp only [List.mem_singleton] at hxv
          subst hxv
          rcases List.mem_cons.mp he with hec | he2
          · subst hec; exact hvw
          · exact hminfst e (hih2 e he2)
    · have hjoin : rem.join.Perm (w :: (rem.set i (w :: r).tail).join) :=
        join_set_cons rem i w r hri
      have hstep1 : (heap.map Prod.fst ++ rem.join).Perm
          ((v :: h2.map Prod.fst) ++ rem.join) :=
        (hperm.map Prod.fst).append_right rem.join
      have hstep2 : ((v :: h2.map Prod.fst) ++ rem.join).Perm
          (v :: (h2.map Prod.fst ++ (w :: (rem.set i (w :: r).tail).join))) :=
        List.Perm.cons v (hjoin.append_left (h2.map Prod.fst))
      have hstep3 : (h2.map Prod.fst ++ (w :: (rem.set i (w :: r).tail).join)).Perm
          (w :: (h2.map Prod.fst ++ (rem.set i (w :: r).tail).join)) :=
        List.perm_middle
      exact (hstep1.trans hstep2).trans (List.Perm.cons v hstep3)

theorem mergeLoop_nil_heap (streams : List (List LineRead)) (out : List Nat) :
    mergeLoop streams [] out = .ok out := by
  rw [mergeLoop]
  simp [mergeStep, popMin]

theorem mergeLoop_ok : ∀ (n : Nat) (streams : List (List LineRead))
    (heap : List (Nat × Nat)) (out : List Nat) (rem : List (List Nat)),
    mergeMeasure streams heap ≤ n → MergeInv streams heap out rem →
    ∃ res, mergeLoop streams heap out = .ok res ∧ List.Sorted (· ≤ ·) res ∧
      res.Perm (out ++ (heap.map Prod.fst ++ rem.join)) := by
  intro n
  induction n with
  | zero =>
    intro streams heap out rem hm hinv
    have hheap : heap = [] := by
      have : heap.length = 0 := by
        unfold mergeMeasure at hm
        omega
      exact List.length_eq_zero.mp this
    subst hheap
    obtain ⟨hlen, _, _, hexh, hsortout, _⟩ := hinv
    have hjoin : rem.join = [] :=
      join_eq_nil_of_getD rem (fun i hi => hexh i (by omega) (by simp))
    exact ⟨out, mergeLoop_nil_heap streams out, hsortout, by simp [hjoin]⟩
  | succ n ih =>
    intro streams heap out rem hm hinv
    cases hpop : popMin heap with
    | none =>
      have hheap : heap = [] := (popMin_none heap).mp hpop
      subst hheap
      obtain ⟨hlen, _, _, hexh, hsortout, _⟩ := hinv
      have hjoin : rem.join = [] :=
        join_eq_nil_of_getD rem (fun i hi => hexh i (by omega) (by simp))
      exact ⟨out, mergeLoop_nil_heap streams out, hsortout, by simp [hjoin]⟩
    | some p =>
      obtain ⟨⟨v, i⟩, h2⟩ := p
      obtain ⟨streams2, heap2, hstep, hlen2, hinv2, hperm2, _, _⟩ :=
        mergeStep_inv streams heap out rem v i h2 hinv hpop
      have hmeas := mergeStep_measure streams heap _ streams2 heap2 hstep
      have hloop : mergeLoop streams heap out = mergeLoop streams2 heap2 (out ++ [v]) := by
        rw [mergeLoop]
        split
        · rename_i e heq
          rw [hstep] at heq
          exact Except.noConfusion heq
        · rename_i heq
          rw [hstep] at heq
          simp at heq
        · rename_i num idx s2 hp2 heq
          rw [hstep] at heq
          simp only [Except.ok.injEq, Option.some.injEq, Prod.mk.injEq] at heq
          obtain ⟨⟨hv, _⟩, hs2, hh2⟩ := heq
          rw [hv, hs2, hh2]
      obtain ⟨res, hres, hsort, hpermres⟩ :=
        ih streams2 heap2 (out ++ [v]) (rem.set i ((rem.getD i []).tail))
          (by omega) hinv2
      refine ⟨res, by rw [hloop]; exact hres, hsort, ?_⟩
      have h1 : (out ++ (heap.map Prod.fst ++ rem.join)).Perm
          ((out ++ [v]) ++ (heap2.map Prod.fst ++
            (rem.set i ((rem.getD i []).tail)).join)) := by
        rw [List.append_assoc]
        exact List.Perm.append_left out hperm2
      exact hpermres.trans h1.symm

theorem getD_map_tail : ∀ (vss : List (List Nat)) (k : Nat),
    (vss.map List.tail).getD k [] = (vss.getD k []).tail
  | [], k => by simp [getD_len_le]
  | vs :: t, 0 => rfl
  | vs :: t, k + 1 => getD_map_tail t k

theorem perm_append_swap (a b c : List Nat) : (a ++ (b ++ c)).Perm (b ++ (a ++ c)) := by
  rw [← List.append_assoc, ← List.append_assoc]
  exact (List.perm_append_comm).append_right c

/-- The priming loop succeeds on streams of the `StreamOK` shape and produces
one heap entry per non-empty stream, holding its head value; the advanced
streams still have the `StreamOK` shape for the remaining values. -/
theorem primeHeap_ok : ∀ (streams : List (List LineRead)) (vss : List (List Nat))
    (idx0 : Nat),
    streams.length = vss.length →
    (∀ k, k < streams.length → StreamOK (streams.getD k []) (vss.getD k [])) →
    ∃ heap streams2,
      primeHeap idx0 streams = .ok (heap, streams2) ∧
      streams2.length = streams.length ∧
      (heap.map Prod.snd).Nodup ∧
      (∀ e ∈ heap, idx0 ≤ e.2 ∧ e.2 - idx0 < streams.length ∧
        ∃ r, vss.getD (e.2 - idx0) [] = e.1 :: r ∧
          StreamOK (streams2.getD (e.2 - idx0) []) r) ∧
      (∀ k, k < streams.length → ∀ w r, vss.getD k [] = w :: r →
        (w, idx0 + k) ∈ heap) ∧
      (heap.map Prod.fst ++ (vss.map List.tail).join).Perm vss.join := by
  intro streams
  induction streams with
  | nil =>
    intro vss idx0 hlen hstr
    have hv : vss = [] := by
      cases vss with
      | nil => rfl
      | cons a b => simp at hlen
    subst hv
    exact ⟨[], [], rfl, rfl, List.nodup_nil, by simp, by simp, by simp⟩
  | cons s srest ihs =>
    intro vss idx0 hlen hstr
    cases vss with
    | nil => simp at hlen
    | cons vs vrest =>
      have h0 : StreamOK s vs := hstr 0 (Nat.succ_pos _)
      have hrest : ∀ k, k < srest.length →
          StreamOK (srest.getD k []) (vrest.getD k []) :=
        fun k hk => hstr (k + 1) (Nat.succ_lt_succ hk)
      obtain ⟨heapR, ssR, heq, hlenR, hnodupR, hentR, hmemR, hpermR⟩ :=
        ihs vrest (idx0 + 1) (by simpa using hlen) hrest
      cases vs with
      | nil =>
        have hgt : goodTailB s = true := StreamOK_nil h0
        have hmain : ∀ (s2 : List LineRead),
            primeHeap idx0 (s :: srest) = .ok (heapR, s2 :: ssR) →
            ∃ heap streams2,
              primeHeap idx0 (s :: srest) = .ok (heap, streams2) ∧
              streams2.length = (s :: srest).length ∧
              (heap.map Prod.snd).Nodup ∧
              (∀ e ∈ heap, idx0 ≤ e.2 ∧ e.2 - idx0 < (s :: srest).length ∧
                ∃ r, (([] : List Nat) :: vrest).getD (e.2 - idx0) [] = e.1 :: r ∧
                  StreamOK (streams2.getD (e.2 - idx0) []) r) ∧
              (∀ k, k < (s :: srest).length → ∀ w r,
                (([] : List Nat) :: vrest).getD k [] = w :: r →
                (w, idx0 + k) ∈ heap) ∧
              (heap.map Prod.fst ++
                  ((([] : List Nat) :: vrest).map List.tail).join).Perm
                (([] : List Nat) :: vrest).join := by
          intro s2 hpeq
          refine ⟨heapR, s2 :: ssR, hpeq, by simpa using hlenR, hnodupR, ?_, ?_, ?_⟩
          · intro e he
            obtain ⟨hge, hlt, r, hvs, hs2⟩ := hentR e he
            have hshift : e.2 - idx0 = (e.2 - (idx0 + 1)) + 1 := by omega
            rw [hshift]
            exact ⟨by omega, by simpa using Nat.succ_lt_succ hlt,
              r, by simpa using hvs, by simpa using hs2⟩
          · intro k hk w r hvk
            cases k with
            | zero => exact absurd hvk (by simp)
            | succ k2 =>
              have := hmemR k2 (by simpa using hk) w r (by simpa using hvk)
              have hsh : idx0 + (k2 + 1) = (idx0 + 1) + k2 := by omega
              rw [hsh]
              exact this
          · simpa using hpermR
        cases hs : s with
        | nil =>
          rw [hs] at hmain
          refine hmain [] ?_
          simp only [primeHeap, heq]
          rfl
        | cons c tail0 =>
          cases c with
          | ok line =>
            rw [hs] at hgt
            exact absurd hgt (by simp [goodTailB])
          | err =>
            rw [hs] at hmain
            refine hmain tail0 ?_
            simp only [primeHeap, heq]
            rfl
      | cons w r =>
        obtain ⟨t, hs, hsokt, hwlt, hwle⟩ := StreamOK_cons h0
        have hpeq : primeHeap idx0 (s :: srest)
            = .ok ((w, idx0) :: heapR, t :: ssR) := by
          rw [hs]
          simp only [primeHeap, okLine, parseU64_natDecimal w hwlt, heq]
          rfl
        refine ⟨(w, idx0) :: heapR, t :: ssR, hpeq, by simpa using hlenR, ?_, ?_, ?_, ?_⟩
        · simp only [List.map_cons, List.nodup_cons]
          refine ⟨?_, hnodupR⟩
          intro hc
          obtain ⟨e, he, hsnd⟩ := List.mem_map.mp hc
          have := (hentR e he).1
          omega
        · intro e he
          rcases List.mem_cons.mp he with hec | he2
          · subst hec
            refine ⟨Nat.le_refl _, by simp, r, ?_, ?_⟩
            · simp
            · simpa using hsokt
          · obtain ⟨hge, hlt, r2, hvs, hs2⟩ := hentR e he2
            have hshift : e.2 - idx0 = (e.2 - (idx0 + 1)) + 1 := by omega
            rw [hshift]
            exact ⟨by omega, by simpa using Nat.succ_lt_succ hlt,
              r2, by simpa using hvs, by simpa using hs2⟩
        · intro k hk w2 r2 hvk
          cases k with
          | zero =>
            have hwr : w = w2 ∧ r = r2 := by
              have : (w :: r : List Nat) = w2 :: r2 := hvk
              exact ⟨by injection this, by injection this⟩
            rw [Nat.add_zero, hwr.1.symm]
            exact List.mem_cons_self _ _
          | succ k2 =>
            have := hmemR k2 (by simpa using hk) w2 r2 (by simpa using hvk)
            have hsh : idx0 + (k2 + 1) = (idx0 + 1) + k2 := by omega
            rw [hsh]
            exact List.mem_cons_of_mem _ this
        · simp only [List.map_cons, List.join]
          have hswap : (heapR.map Prod.fst ++ ((w :: r).tail ++ (vrest.map List.tail).join)).Perm
              ((w :: r).tail ++ (heapR.map Prod.fst ++ (vrest.map List.tail).join)) :=
            perm_append_swap _ _ _
          have htail : ((w :: r) : List Nat).tail = r := rfl
          rw [List.cons_append, htail]
          refine List.Perm.cons w ?_
          exact (hswap.trans ((hpermR).append_left r)).trans (List.Perm.refl _)

theorem except_bind_ok {α β : Type} (a : α) (f : α → Except MergeErr β) :
    (Except.ok a >>= f) = f a := rfl

theorem except_bind_err {α β : Type} (e : MergeErr) (f : α → Except MergeErr β) :
    ((Except.error e : Except MergeErr α) >>= f) = .error e := rfl

theorem deleteRange_ok : ∀ (self : Sorter) (delOk : String → Bool)
    (l : List Nat) (ps : List String),
    deleteRange self delOk l = .ok ps →
    ps = l.map self.get_temp_file_path ∧
      ∀ i ∈ l, delOk (self.get_temp_file_path i) = true
  | self, delOk, [], ps, h => by
    simp only [deleteRange, Except.ok.injEq] at h
    subst h
    exact ⟨rfl, by simp⟩
  | self, delOk, i :: rest, ps, h => by
    simp only [deleteRange] at h
    by_cases hd : delOk (self.get_temp_file_path i) = true
    · rw [if_pos hd] at h
      cases hrec : deleteRange self delOk rest with
      | error e =>
        rw [hrec, except_bind_err] at h
        exact absurd h (by simp)
      | ok ps2 =>
        rw [hrec, except_bind_ok] at h
        simp only [Except.ok.injEq] at h
        obtain ⟨hps, hall⟩ := deleteRange_ok self delOk rest ps2 hrec
        subst hps
        refine ⟨by rw [← h]; rfl, ?_⟩
        intro j hj
        rcases List.mem_cons.mp hj with hji | hjr
        · subst hji; exact hd
        · exact hall j hjr
    · rw [if_neg hd] at h
      exact absurd h (by simp)

theorem deleteRange_succeeds : ∀ (self : Sorter) (delOk : String → Bool)
    (l : List Nat),
    (∀ i ∈ l, delOk (self.get_temp_file_path i) = true) →
    deleteRange self delOk l = .ok (l.map self.get_temp_file_path)
  | self, delOk, [], _ => rfl
  | self, delOk, i :: rest, h => by
    have hd : delOk (self.get_temp_file_path i) = true :=
      h i (List.mem_cons_self i rest)
    have hrec := deleteRange_succeeds self delOk rest
      (fun j hj => h j (List.mem_cons_of_mem i hj))
    simp only [deleteRange, hd, if_true, hrec, List.map_cons]
    rfl

theorem getD_range_map {β : Type} (N : Nat) (f : Nat → β) (k : Nat) (d : β)
    (hk : k < N) : ((List.range N).map f).getD k d = f k := by
  rw [List.getD_eq_getElem?_getD, List.getElem?_map, List.getElem?_range hk]
  rfl

/-- Main correctness of the merge phase: on `N` streams holding the sorted
value lists `vss` (each possibly followed by a read error), with all
deletions succeeding, `merge_files` writes a sorted permutation of all the
values and deletes exactly the `N` partition paths. -/
theorem merge_files_good (self : Sorter) (N : Nat) (readFile : Nat → List LineRead)
    (delOk : String → Bool) (vss : List (List Nat))
    (hlen : vss.length = N)
    (hstr : ∀ k, k < N → StreamOK (readFile k) (vss.getD k []))
    (hdel : ∀ i, i < N → delOk (self.get_temp_file_path i) = true) :
    ∃ out, self.merge_files N readFile delOk
        = .ok ⟨out, (List.range N).map self.get_temp_file_path, N⟩ ∧
      List.Sorted (· ≤ ·) out ∧ out.Perm vss.join := by
  by_cases hN : N = 0
  · subst hN
    have hv : vss = [] := by
      cases vss with
      | nil => rfl
      | cons a b => simp at hlen
    subst hv
    exact ⟨[], by simp [Sorter.merge_files], List.sorted_nil, by simp⟩
  · have hstreamlen : ((List.range N).map readFile).length = N := by simp
    have hstr2 : ∀ k, k < ((List.range N).map readFile).length →
        StreamOK (((List.range N).map readFile).getD k []) (vss.getD k []) := by
      intro k hk
      rw [hstreamlen] at hk
      rw [getD_range_map N readFile k [] hk]
      exact hstr k hk
    obtain ⟨heap, streams2, hpeq, hlen2, hnodup, hent, hmem, hperm⟩ :=
      primeHeap_ok ((List.range N).map readFile) vss 0 (by simp [hlen]) hstr2
    rw [hstreamlen] at hlen2
    have hinv : MergeInv streams2 heap [] (vss.map List.tail) := by
      refine ⟨by simp [hlen, hlen2], hnodup, ?_, ?_, List.sorted_nil, by simp⟩
      · intro e he
        obtain ⟨-, hlt, r, hvs, hs2⟩ := hent e he
        rw [Nat.sub_zero] at hlt hvs hs2
        rw [hstreamlen] at hlt
        have hsorted : List.Sorted (· ≤ ·) (vss.getD e.2 []) :=
          (hstr e.2 hlt).2.2.1
        rw [hvs] at hsorted
        refine ⟨by omega, ?_, ?_⟩
        · rw [getD_map_tail, hvs]
          exact hs2
        · rw [getD_map_tail, hvs]
          exact (List.sorted_cons.mp hsorted).1
      · intro i hi hno
        rw [getD_map_tail]
        cases hv : vss.getD i [] with
        | nil => rfl
        | cons w r =>
          have hmem2 := hmem i (by omega) w r hv
          rw [Nat.zero_add] at hmem2
          exact absurd rfl (hno (w, i) hmem2)
    obtain ⟨out, hloop, hsort, hpermout⟩ :=
      mergeLoop_ok (mergeMeasure streams2 heap) streams2 heap [] (vss.map List.tail)
        (Nat.le_refl _) hinv
    have hdelr := deleteRange_succeeds self delOk (List.range N)
      (fun i hi => hdel i (List.mem_range.mp hi))
    refine ⟨out, ?_, hsort, ?_⟩
    · simp only [Sorter.merge_files, if_neg hN, hpeq, except_bind_ok, hloop, hdelr]
    · have h1 : out.Perm (heap.map Prod.fst ++ (vss.map List.tail).join) := by
        simpa using hpermout
      exact h1.trans hperm


/-! ## Spill-phase lemmas -/

theorem spillGo_join_perm (self : Sorter) : ∀ (input buf : List Nat),
    ((spillGo self buf input).join).Perm (buf ++ input) := by
  intro input
  induction input with
  | nil =>
    intro buf
    by_cases hb : buf.isEmpty
    · have : buf = [] := by simpa using hb
      subst this
      simp [spillGo]
    · simp only [spillGo, hb, if_false, List.join, List.append_nil]
      simpa using (List.perm_insertionSort (· ≤ ·) buf)
  | cons n rest ih =>
    intro buf
    by_cases hfull : (buf ++ [n]).length ≥ self.batch
    · simp only [spillGo, hfull, if_true, List.join]
      have h1 : (List.insertionSort (· ≤ ·) (buf ++ [n])).Perm (buf ++ [n]) :=
        List.perm_insertionSort (· ≤ ·) (buf ++ [n])
      have h2 := ih []
      simp only [List.nil_append] at h2
      have h3 := h1.append h2
      have : (buf ++ [n]) ++ rest = buf ++ n :: rest := by simp
      rw [this] at h3
      simpa [Sorter.sort_and_write_to_file] using h3
    · simp only [spillGo, hfull, if_false]
      have h2 := ih (buf ++ [n])
      have : (buf ++ [n]) ++ rest = buf ++ n :: rest := by simp
      rw [this] at h2
      exact h2

theorem spillGo_sorted (self : Sorter) : ∀ (input buf : List Nat),
    ∀ p ∈ spillGo self buf input, List.Sorted (· ≤ ·) p := by
  intro input
  induction input with
  | nil =>
    intro buf p hp
    by_cases hb : buf.isEmpty
    · simp [spillGo, hb] at hp
    · simp only [spillGo, hb, Bool.false_eq_true, if_false, List.mem_singleton] at hp
      subst hp
      exact List.sorted_insertionSort (· ≤ ·) buf
  | cons n rest ih =>
    intro buf p hp
    by_cases hfull : (buf ++ [n]).length ≥ self.batch
    · simp only [spillGo, hfull, if_true, List.mem_cons] at hp
      rcases hp with hp1 | hp2
      · subst hp1
        exact List.sorted_insertionSort (· ≤ ·) (buf ++ [n])
      · exact ih [] p hp2
    · simp only [spillGo, hfull, if_false] at hp
      exact ih (buf ++ [n]) p hp

theorem spillGo_ne_nil (self : Sorter) : ∀ (input buf : List Nat),
    ∀ p ∈ spillGo self buf input, p ≠ [] := by
  intro input
  induction input with
  | nil =>
    intro buf p hp
    by_cases hb : buf.isEmpty
    · simp [spillGo, hb] at hp
    · simp only [spillGo, hb, Bool.false_eq_true, if_false, List.mem_singleton] at hp
      subst hp
      intro hc
      have hperm := List.perm_insertionSort (· ≤ ·) buf
      rw [Sorter.sort_and_write_to_file] at hc
      rw [hc] at hperm
      have : buf = [] := hperm.symm.eq_nil
      simp [this] at hb
  | cons n rest ih =>
    intro buf p hp
    by_cases hfull : (buf ++ [n]).length ≥ self.batch
    · simp only [spillGo, hfull, if_true, List.mem_cons] at hp
      rcases hp with hp1 | hp2
      · subst hp1
        intro hc
        have hperm := List.perm_insertionSort (· ≤ ·) (buf ++ [n])
        rw [Sorter.sort_and_write_to_file] at hc
        rw [hc] at hperm
        have := hperm.symm.eq_nil
        simp at this
      · exact ih [] p hp2
    · simp only [spillGo, hfull, if_false] at hp
      exact ih (buf ++ [n]) p hp

theorem spillGo_len_le (self : Sorter) (hB : 1 ≤ self.batch) :
    ∀ (input buf : List Nat), buf.length < self.batch →
    ∀ p ∈ spillGo self buf input, p.length ≤ self.batch := by
  intro input
  induction input with
  | nil =>
    intro buf hbuf p hp
    by_cases hb : buf.isEmpty
    · simp [spillGo, hb] at hp
    · simp only [spillGo, hb, Bool.false_eq_true, if_false, List.mem_singleton] at hp
      subst hp
      have : (List.insertionSort (· ≤ ·) buf).length = buf.length :=
        (List.perm_insertionSort (· ≤ ·) buf).length_eq
      rw [Sorter.sort_and_write_to_file, this]
      omega
  | cons n rest ih =>
    intro buf hbuf p hp
    by_cases hfull : (buf ++ [n]).length ≥ self.batch
    · simp only [spillGo, hfull, if_true, List.mem_cons] at hp
      rcases hp with hp1 | hp2
      · subst hp1
        have hlen : (List.insertionSort (· ≤ ·) (buf ++ [n])).length
            = (buf ++ [n]).length :=
          (List.perm_insertionSort (· ≤ ·) (buf ++ [n])).length_eq
        rw [Sorter.sort_and_write_to_file, hlen]
        simp only [List.length_append, List.length_singleton]
        omega
      · exact ih [] (by simp only [List.length_nil]; omega) p hp2
    · simp only [spillGo, hfull, if_false] at hp
      have hlt : (buf ++ [n]).length < self.batch := by omega
      exact ih (buf ++ [n]) hlt p hp

theorem spillGo_count (self : Sorter) (hB : 1 ≤ self.batch) :
    ∀ (input buf : List Nat), buf.length < self.batch →
    (spillGo self buf input).length
      = (buf.length + input.length + self.batch - 1) / self.batch := by
  intro input
  induction input with
  | nil =>
    intro buf hbuf
    by_cases hb : buf.isEmpty
    · have hb2 : buf = [] := by simpa using hb
      subst hb2
      simp only [spillGo, List.isEmpty_nil, if_true, List.length_nil]
      have : (0 + 0 + self.batch - 1) / self.batch = 0 :=
        Nat.div_eq_of_lt (by omega)
      omega
    · have hb2 : buf.length ≠ 0 := by
        intro hc
        rw [List.length_eq_zero] at hc
        simp [hc] at hb
      simp only [spillGo, hb, Bool.false_eq_true, if_false, List.length_singleton,
        List.length_nil]
      have h1 : 1 * self.batch ≤ buf.length + 0 + self.batch - 1 := by omega
      have h2 : buf.length + 0 + self.batch - 1 < (1 + 1) * self.batch := by omega
      exact (Nat.div_eq_of_lt_le h1 h2).symm
  | cons n rest ih =>
    intro buf hbuf
    by_cases hfull : (buf ++ [n]).length ≥ self.batch
    · have hlen : (buf ++ [n]).length = self.batch := by
        simp only [List.length_append, List.length_singleton] at hfull ⊢
        omega
      simp only [spillGo, hfull, if_true, List.length_cons]
      rw [ih [] (by simp only [List.length_nil]; omega)]
      simp only [List.length_nil, List.length_cons, List.length_append,
        List.length_singleton, Nat.zero_add] at hlen ⊢
      have heq : buf.length + (rest.length + 1) + self.batch - 1
          = (rest.length + self.batch - 1) + self.batch := by omega
      rw [heq, Nat.add_div_right _ (by omega)]
    · simp only [spillGo, hfull, if_false]
      have harg : (buf ++ [n]).length < self.batch := by
        simp only [List.length_append, List.length_singleton] at hfull ⊢
        omega
      rw [ih (buf ++ [n]) harg]
      simp only [List.length_append, List.length_singleton, List.length_cons,
        List.length_nil]
      exact congrArg (fun x => x / self.batch) (by omega)

theorem spillGo_batch0 (self : Sorter) (h0 : self.batch = 0) :
    ∀ (ns : List Nat), spillGo self [] ns = ns.map (fun n => [n])
  | [] => rfl
  | n :: rest => by
    have hfull : (([] : List Nat) ++ [n]).length ≥ self.batch := by simp [h0]
    simp only [spillGo, hfull, if_true, List.map_cons]
    rw [spillGo_batch0 self h0 rest]
    rfl

theorem spillGo_mem_values (self : Sorter) (input buf : List Nat)
    (p : List Nat) (hp : p ∈ spillGo self buf input) :
    ∀ v ∈ p, v ∈ buf ++ input := by
  intro v hv
  have hj : v ∈ (spillGo self buf input).join := List.mem_join.mpr ⟨p, hp, hv⟩
  exact (spillGo_join_perm self input buf).subset hj


/-! ## Whole-pipeline correctness -/

theorem parseU64_lt (s : String) (v : Nat) (h : parseU64 s = some v) :
    v < U64_LIMIT := by
  unfold parseU64 at h
  by_cases he : (if s.data.head? = some '+' then s.data.tail else s.data).isEmpty
  · rw [if_pos he] at h
    exact absurd h (by simp)
  · rw [if_neg he] at h
    cases hp : parseDigitsAux (if s.data.head? = some '+' then s.data.tail else s.data) with
    | none => simp [hp] at h
    | some w =>
      simp only [hp] at h
      by_cases hw : w < U64_LIMIT
      · rw [if_pos hw] at h
        simp only [Option.some.injEq] at h
        subst h
        exact hw
      · rw [if_neg hw] at h
        exact absurd h (by simp)

theorem parseAll_bound : ∀ (lines : List String) (ns : List Nat),
    parseAll lines = .ok ns → ∀ v ∈ ns, v < U64_LIMIT
  | [], ns, h => by
    simp only [parseAll, Except.ok.injEq] at h
    subst h
    simp
  | l :: rest, ns, h => by
    simp only [parseAll] at h
    cases hp : parseU64 l with
    | none => simp [hp] at h
    | some v =>
      simp only [hp] at h
      cases hrec : parseAll rest with
      | error e => rw [hrec, except_bind_err] at h; exact absurd h (by simp)
      | ok vs =>
        rw [hrec, except_bind_ok] at h
        simp only [Except.ok.injEq] at h
        subst h
        intro x hx
        rcases List.mem_cons.mp hx with hxv | hxs
        · subst hxv; exact parseU64_lt l x hp
        · exact parseAll_bound rest vs hrec x hxs

/-- A partition file written by the spill phase, read back as a stream. -/
theorem streamOK_of_sorted (vs : List Nat) (hs : List.Sorted (· ≤ ·) vs)
    (hb : ∀ v ∈ vs, v < U64_LIMIT) : StreamOK (vs.map okLine) vs := by
  refine ⟨?_, ?_, hs, hb⟩
  · rw [← List.length_map vs okLine]
    exact List.take_length _
  · rw [← List.length_map vs okLine, List.drop_length]
    rfl

/-- Full-pipeline correctness: on input lines that all parse (to `ns`) and a
file system whose deletions succeed, `main` succeeds and the output file is a
sorted permutation of the input values; the partition files deleted are
exactly those the spill phase created. Holds for every batch size, including
zero. -/
theorem runMain_correct (self : Sorter) (lines : List String) (ns : List Nat)
    (delOk : String → Bool)
    (hp : parseAll lines = .ok ns) (hd : ∀ s, delOk s = true) :
    ∃ out, runMain self lines delOk
        = .ok ⟨out, (List.range (spillGo self [] ns).length).map
            self.get_temp_file_path, (spillGo self [] ns).length⟩ ∧
      List.Sorted (· ≤ ·) out ∧ out.Perm ns := by
  have hbound := parseAll_bound lines ns hp
  have hstr : ∀ k, k < (spillGo self [] ns).length →
      StreamOK (((spillGo self [] ns).getD k []).map okLine)
        ((spillGo self [] ns).getD k []) := by
    intro k hk
    have hmem : (spillGo self [] ns).getD k [] ∈ spillGo self [] ns := by
      rw [List.getD_eq_getElem?_getD, List.getElem?_eq_getElem hk]
      exact List.getElem_mem hk
    refine streamOK_of_sorted _ (spillGo_sorted self ns [] _ hmem) ?_
    intro v hv
    have := spillGo_mem_values self ns [] _ hmem v hv
    simp only [List.nil_append] at this
    exact hbound v this
  obtain ⟨out, hmf, hsort, hperm⟩ :=
    merge_files_good self (spillGo self [] ns).length
      (fun i => ((spillGo self [] ns).getD i []).map okLine) delOk
      (spillGo self [] ns) rfl hstr (fun i _ => hd _)
  refine ⟨out, ?_, hsort, ?_⟩
  · simp only [runMain, hp, except_bind_ok]
    exact hmf
  · refine hperm.trans ?_
    have := spillGo_join_perm self ns []
    simpa using this

/-- The bytes written to the output file for a given value sequence: each
value as a decimal line terminated by a newline (`writeln!`). -/
def renderFile (vs : List Nat) : String :=
  String.join (vs.map fun v => natDecimal v ++ "\n")


/-! ## Error propagation helpers -/

/-- Priming aborts with a parse error as soon as any stream's first line is
present but unparsable (the `line.parse()?` in the priming loop). -/
theorem primeHeap_err : ∀ (streams : List (List LineRead)) (idx0 k : Nat) (s : String),
    k < streams.length → (streams.getD k []).head? = some (.ok s) →
    parseU64 s = none → primeHeap idx0 streams = .error .parseErr := by
  intro streams
  induction streams with
  | nil => intro idx0 k s hk; simp at hk
  | cons st rest ih =>
    intro idx0 k s hk hhead hparse
    cases k with
    | zero =>
      cases st with
      | nil => simp at hhead
      | cons c t =>
        have hc : c = .ok s := by simpa using hhead
        subst hc
        simp only [primeHeap, hparse]
    | succ k2 =>
      have hrec := ih (idx0 + 1) k2 s (by simpa using hk) (by simpa using hhead) hparse
      cases st with
      | nil => simp only [primeHeap, hrec, except_bind_err]
      | cons c t =>
        cases c with
        | err => simp only [primeHeap, hrec, except_bind_err]
        | ok line =>
          cases hp : parseU64 line with
          | none => simp only [primeHeap, hp]
          | some w => simp only [primeHeap, hp, hrec, except_bind_err]

/-- One unfolding of the merge loop on a successful step. -/
theorem mergeLoop_step_eq (streams : List (List LineRead)) (heap : List (Nat × Nat))
    (out : List Nat) (num idx : Nat) (streams2 : List (List LineRead))
    (heap2 : List (Nat × Nat))
    (h : mergeStep streams heap = .ok (some ((num, idx), (streams2, heap2)))) :
    mergeLoop streams heap out = mergeLoop streams2 heap2 (out ++ [num]) := by
  rw [mergeLoop]
  split
  · rename_i e heq
    rw [h] at heq
    exact Except.noConfusion heq
  · rename_i heq
    rw [h] at heq
    simp at heq
  · rename_i num2 idx2 s2 h2 heq
    rw [h] at heq
    simp only [Except.ok.injEq, Option.some.injEq, Prod.mk.injEq] at heq
    obtain ⟨⟨hv, -⟩, hs2, hh2⟩ := heq
    rw [← hv, ← hs2, ← hh2]

/-- The merge loop propagates a parse error raised by a step. -/
theorem mergeLoop_err (streams : List (List LineRead)) (heap : List (Nat × Nat))
    (out : List Nat) (h : mergeStep streams heap = .error .parseErr) :
    mergeLoop streams heap out = .error .parseErr := by
  rw [mergeLoop]
  split
  · rename_i e heq
    rw [h] at heq
    simp only [Except.error.injEq] at heq
    rw [heq]
  · rename_i heq
    rw [h] at heq
    exact Except.noConfusion heq
  · rename_i num2 idx2 s2 h2 heq
    rw [h] at heq
    exact Except.noConfusion heq

/-- Inversion of a successful `merge_files`: the deletion loop ran to
completion, so the deleted paths are exactly the `N` partition paths and
every deletion succeeded. -/
theorem merge_files_ok_inv (self : Sorter) (N : Nat) (readFile : Nat → List LineRead)
    (delOk : String → Bool) (o : MergeOutcome)
    (h : self.merge_files N readFile delOk = .ok o) :
    o.deleted = (List.range N).map self.get_temp_file_path ∧
    ∀ i, i < N → delOk (self.get_temp_file_path i) = true := by
  by_cases hN : N = 0
  · subst hN
    have h0 : self.merge_files 0 readFile delOk = .ok ⟨[], [], 0⟩ := rfl
    rw [h0] at h
    have ho : (⟨[], [], 0⟩ : MergeOutcome) = o := by
      injection h
    subst ho
    exact ⟨by simp, fun i hi => absurd hi (by omega)⟩
  · simp only [Sorter.merge_files, if_neg hN] at h
    cases hpr : primeHeap 0 ((List.range N).map readFile) with
    | error e => simp [hpr, except_bind_err] at h
    | ok pr =>
      obtain ⟨heap, streams2⟩ := pr
      simp only [hpr, except_bind_ok] at h
      cases hlo : mergeLoop streams2 heap [] with
      | error e => simp [hlo, except_bind_err] at h
      | ok out =>
        simp only [hlo, except_bind_ok] at h
        cases hde : deleteRange self delOk (List.range N) with
        | error e => simp [hde, except_bind_err] at h
        | ok ps =>
          simp only [hde, except_bind_ok, Except.ok.injEq] at h
          obtain ⟨hps, hall⟩ := deleteRange_ok self delOk (List.range N) ps hde
          subst h
          exact ⟨by simpa using hps, fun i hi => hall i (List.mem_range.mpr hi)⟩


/-- Concrete evaluation of a one-partition merge, used to exhibit a
successful run. -/
theorem merge_files_eval_single :
    Sorter.merge_files ⟨"a", "d/o", 1⟩ 1 (fun _ => [okLine 5]) (fun _ => true)
      = .ok ⟨[5], ["d/sort_temp_file_0.txt"], 1⟩ := by
  have hstep : mergeStep [[]] [(5, 0)] = .ok (some ((5, 0), ([[]], []))) := rfl
  have hloop : mergeLoop [[]] [(5, 0)] [] = .ok [5] :=
    (mergeLoop_step_eq [[]] [(5, 0)] [] 5 0 [[]] [] hstep).trans
      (mergeLoop_nil_heap [[]] ([] ++ [5]))
  have hshape : Sorter.merge_files ⟨"a", "d/o", 1⟩ 1 (fun _ => [okLine 5])
      (fun _ => true)
      = (mergeLoop [[]] [(5, 0)] [] >>= fun out =>
          (deleteRange ⟨"a", "d/o", 1⟩ (fun _ => true) (List.range 1)
            >>= fun deleted => Except.ok ⟨out, deleted, 1⟩)) := rfl
  rw [hshape, hloop, except_bind_ok]
  rfl

/-! ## Claim theorems -/

/-- C1: for every input file in which every line parses as an unsigned 64-bit
integer, and every batch size at least 1 (with all file deletions
succeeding), the program succeeds and writes an output file whose sequence of
values is non-decreasing and whose multiset of values equals the multiset of
values in the input (duplicates retained, nothing dropped or added). -/
theorem claim_c1_sorted_multiset (self : Sorter) (lines : List String)
    (ns : List Nat) (delOk : String → Bool) (hB : 1 ≤ self.batch)
    (hp : parseAll lines = .ok ns) (hd : ∀ s, delOk s = true) :
    ∃ o, runMain self lines delOk = .ok o ∧
      List.Sorted (· ≤ ·) o.output ∧ o.output.Perm ns := by
  obtain ⟨out, h1, h2, h3⟩ := runMain_correct self lines ns delOk hp hd
  exact ⟨_, h1, h2, h3⟩

theorem claim_c1_witness :
    1 ≤ (2 : Nat) ∧ parseAll ["5", "3", "5", "1"] = .ok [5, 3, 5, 1] ∧
    ∃ o, runMain ⟨"in.txt", "d/out.txt", 2⟩ ["5", "3", "5", "1"] (fun _ => true)
        = .ok o ∧ List.Sorted (· ≤ ·) o.output ∧ o.output.Perm [5, 3, 5, 1] :=
  ⟨by decide, rfl,
    claim_c1_sorted_multiset ⟨"in.txt", "d/out.txt", 2⟩ ["5", "3", "5", "1"]
      [5, 3, 5, 1] (fun _ => true) (by decide) rfl (fun _ => rfl)⟩

/-- C2: for every input of well-formed records and every batch capacity
B at least 1, the spill phase produces exactly ceil(total/B) partitions, each
holding at most B records sorted ascending and none empty (so an input whose
size is an exact multiple of B gets no extra empty partition), and the
reported count is the number of partitions produced. -/
theorem claim_c2_spill (self : Sorter) (ns : List Nat) (hB : 1 ≤ self.batch) :
    (spillGo self [] ns).length = (ns.length + self.batch - 1) / self.batch ∧
    ∀ p ∈ spillGo self [] ns,
      p.length ≤ self.batch ∧ List.Sorted (· ≤ ·) p ∧ p ≠ [] := by
  constructor
  · have h := spillGo_count self hB ns [] (by simp only [List.length_nil]; omega)
    simpa using h
  · intro p hp
    exact ⟨spillGo_len_le self hB ns [] (by simp only [List.length_nil]; omega) p hp,
      spillGo_sorted self ns [] p hp, spillGo_ne_nil self ns [] p hp⟩

theorem claim_c2_witness :
    (spillGo ⟨"a", "d/o", 2⟩ [] [3, 1, 2]).length
      = ([3, 1, 2].length + 2 - 1) / 2 ∧
    ∀ p ∈ spillGo ⟨"a", "d/o", 2⟩ [] [3, 1, 2],
      p.length ≤ 2 ∧ List.Sorted (· ≤ ·) p ∧ p ≠ [] :=
  claim_c2_spill ⟨"a", "d/o", 2⟩ [3, 1, 2] (by decide)

/-- C3 counterexample: a surfaced empty line in a partition during the merge
is NOT treated as end-of-stream — the merge aborts with a parse error
instead of continuing. -/
theorem claim_c3_counterexample :
    Sorter.merge_files ⟨"in.txt", "d/out.txt", 2⟩ 1 (fun _ => [.ok ""])
      (fun _ => true) = .error .parseErr := rfl

/-- C3 amended: during the merge, only a read failure or true end-of-stream
ends a partition's stream early; a line that is present but fails
unsigned-integer parsing (including an empty line) aborts the whole merge
with a propagated parse error, both when priming the queue (first part, for
any stream whose first line is unparsable) and when advancing a stream after
a pop (second part). -/
theorem claim_c3_amended :
    (∀ (self : Sorter) (N : Nat) (readFile : Nat → List LineRead)
      (delOk : String → Bool) (i : Nat) (s : String), i < N →
      (readFile i).head? = some (.ok s) → parseU64 s = none →
      self.merge_files N readFile delOk = .error .parseErr) ∧
    (∀ (self : Sorter) (delOk : String → Bool) (v : Nat) (s : String)
      (rest : List LineRead), v < U64_LIMIT → parseU64 s = none →
      self.merge_files 1 (fun _ => okLine v :: .ok s :: rest) delOk
        = .error .parseErr) := by
  constructor
  · intro self N readFile delOk i s hi hhead hparse
    have hN : ¬N = 0 := by omega
    have herr : primeHeap 0 ((List.range N).map readFile) = .error .parseErr := by
      refine primeHeap_err _ 0 i s (by simpa using hi) ?_ hparse
      rw [getD_range_map N readFile i [] hi]
      exact hhead
    simp only [Sorter.merge_files, if_neg hN, herr, except_bind_err]
  · intro self delOk v s rest hv hparse
    have hprime : primeHeap 0 ((List.range 1).map (fun _ => okLine v :: .ok s :: rest))
        = .ok ([(v, 0)], [.ok s :: rest]) := by
      simp only [List.range_succ, List.range_zero, List.nil_append, List.map_cons,
        List.map_nil, primeHeap, okLine, parseU64_natDecimal v hv, except_bind_ok]
    have hstep : mergeStep [.ok s :: rest] [(v, 0)] = .error .parseErr := by
      simp only [mergeStep, popMin, getD_cons_zero, hparse]
    have hloop := mergeLoop_err [.ok s :: rest] [(v, 0)] [] hstep
    simp only [Sorter.merge_files, if_neg (by omega : ¬(1 : Nat) = 0), hprime,
      except_bind_ok, hloop, except_bind_err]

theorem claim_c3_witness :
    Sorter.merge_files ⟨"a", "d/o", 1⟩ 1 (fun _ => [.ok ""]) (fun _ => true)
      = .error .parseErr ∧
    Sorter.merge_files ⟨"a", "d/o", 1⟩ 1 (fun _ => [okLine 7, .ok "zz"])
      (fun _ => true) = .error .parseErr :=
  ⟨claim_c3_amended.1 ⟨"a", "d/o", 1⟩ 1 (fun _ => [.ok ""]) (fun _ => true)
      0 "" (by decide) rfl rfl,
    claim_c3_amended.2 ⟨"a", "d/o", 1⟩ (fun _ => true) 7 "zz" [] (by decide) rfl⟩

/-- C4 counterexample: a read failure on a partition's first line during the
merge is silently converted into end-of-stream — the run still succeeds —
instead of being fatal and propagated. -/
theorem claim_c4_counterexample :
    Sorter.merge_files ⟨"in.txt", "d/out.txt", 2⟩ 1 (fun _ => [.err])
      (fun _ => true) = .ok ⟨[], ["d/sort_temp_file_0.txt"], 1⟩ := by
  have hshape : Sorter.merge_files ⟨"in.txt", "d/out.txt", 2⟩ 1 (fun _ => [.err])
      (fun _ => true)
      = (mergeLoop [[]] [] [] >>= fun out =>
          (deleteRange ⟨"in.txt", "d/out.txt", 2⟩ (fun _ => true) (List.range 1)
            >>= fun deleted => Except.ok ⟨out, deleted, 1⟩)) := rfl
  rw [hshape, mergeLoop_nil_heap, except_bind_ok]
  rfl

/-- C4 amended: write and delete failures on temporary or output files are
fatal and propagated — in particular a run can only succeed if every
partition deletion succeeded (first part) — but a failed line read from a
partition during the merge is NOT propagated: it is silently treated as
end-of-stream for that partition, and a merge over streams whose values are
followed by read-error junk succeeds with exactly the same result as over
the clean streams (second part). A failed partition open panics instead of
returning an error and is not modelled here. -/
theorem claim_c4_amended :
    (∀ (self : Sorter) (N : Nat) (readFile : Nat → List LineRead)
      (delOk : String → Bool) (o : MergeOutcome),
      self.merge_files N readFile delOk = .ok o →
      ∀ i, i < N → delOk (self.get_temp_file_path i) = true) ∧
    (∀ (self : Sorter) (N : Nat) (readFile : Nat → List LineRead)
      (delOk : String → Bool) (vss : List (List Nat)), vss.length = N →
      (∀ k, k < N → StreamOK (readFile k) (vss.getD k [])) →
      (∀ i, i < N → delOk (self.get_temp_file_path i) = true) →
      self.merge_files N readFile delOk
        = self.merge_files N (fun k => (vss.getD k []).map okLine) delOk ∧
      ∃ o, self.merge_files N readFile delOk = .ok o) := by
  constructor
  · intro self N readFile delOk o h
    exact (merge_files_ok_inv self N readFile delOk o h).2
  · intro self N readFile delOk vss hlen hstr hdel
    obtain ⟨out1, hmf1, hsort1, hperm1⟩ :=
      merge_files_good self N readFile delOk vss hlen hstr hdel
    have hstr2 : ∀ k, k < N → StreamOK ((vss.getD k []).map okLine) (vss.getD k []) :=
      fun k hk => streamOK_of_sorted _ (hstr k hk).2.2.1 (hstr k hk).2.2.2
    obtain ⟨out2, hmf2, hsort2, hperm2⟩ :=
      merge_files_good self N (fun k => (vss.getD k []).map okLine) delOk vss
        hlen hstr2 hdel
    have hout : out1 = out2 :=
      List.eq_of_perm_of_sorted (hperm1.trans hperm2.symm) hsort1 hsort2
    refine ⟨?_, _, hmf1⟩
    rw [hmf1, hmf2, hout]

theorem claim_c4_amended_witness :
    [[5]].length = 1 ∧
    (∀ k, k < 1 → StreamOK ((fun _ => [okLine 5, LineRead.err]) k) ([[5]].getD k [])) ∧
    (Sorter.merge_files ⟨"a", "d/o", 1⟩ 1 (fun _ => [okLine 5, .err]) (fun _ => true)
        = Sorter.merge_files ⟨"a", "d/o", 1⟩ 1
            (fun k => (([[5]] : List (List Nat)).getD k []).map okLine) (fun _ => true) ∧
      ∃ o, Sorter.merge_files ⟨"a", "d/o", 1⟩ 1 (fun _ => [okLine 5, .err])
          (fun _ => true) = .ok o) :=
  ⟨rfl, by decide,
    claim_c4_amended.2 ⟨"a", "d/o", 1⟩ 1 (fun _ => [okLine 5, .err]) (fun _ => true)
      [[5]] rfl (by decide) (by decide)⟩

/-- C5: evaluation of the partition naming function at a bare output
filename. Rust's `Path::parent` returns `Some("")` (not `None`) for a
one-component relative path, so the partition is placed at the filesystem
root, not in the current working directory as the specification intends; the
cwd fallback branch is unreachable for bare filenames. -/
theorem claim_c5_bare_filename :
    Sorter.get_temp_file_path ⟨"in.txt", "out.txt", 16⟩ 0
      = "/sort_temp_file_0.txt" ∧
    Sorter.get_temp_file_path ⟨"in.txt", "out.txt", 16⟩ 0
      ≠ "sort_temp_file_0.txt" := by
  exact ⟨rfl, by decide⟩

/-- C6: for a fixed well-formed input (with all deletions succeeding), the
bytes of the output file are identical for any two batch sizes at least 1:
the spill-merge composition is extensionally the same function of the input
for all such batch sizes. -/
theorem claim_c6_batch_independent (inp1 inp2 outp : String) (B1 B2 : Nat)
    (lines : List String) (ns : List Nat) (delOk : String → Bool)
    (h1 : 1 ≤ B1) (h2 : 1 ≤ B2)
    (hp : parseAll lines = .ok ns) (hd : ∀ s, delOk s = true) :
    ∃ o1 o2, runMain ⟨inp1, outp, B1⟩ lines delOk = .ok o1 ∧
      runMain ⟨inp2, outp, B2⟩ lines delOk = .ok o2 ∧
      o1.output = o2.output ∧ renderFile o1.output = renderFile o2.output := by
  obtain ⟨out1, hm1, hs1, hp1⟩ := runMain_correct ⟨inp1, outp, B1⟩ lines ns delOk hp hd
  obtain ⟨out2, hm2, hs2, hp2⟩ := runMain_correct ⟨inp2, outp, B2⟩ lines ns delOk hp hd
  have heq : out1 = out2 :=
    List.eq_of_perm_of_sorted (hp1.trans hp2.symm) hs1 hs2
  subst heq
  exact ⟨_, _, hm1, hm2, rfl, rfl⟩

theorem claim_c6_witness :
    parseAll ["9", "2", "9"] = .ok [9, 2, 9] ∧
    ∃ o1 o2, runMain ⟨"a", "d/o", 1⟩ ["9", "2", "9"] (fun _ => true) = .ok o1 ∧
      runMain ⟨"b", "d/o", 5⟩ ["9", "2", "9"] (fun _ => true) = .ok o2 ∧
      o1.output = o2.output ∧ renderFile o1.output = renderFile o2.output :=
  ⟨rfl, claim_c6_batch_independent "a" "b" "d/o" 1 5 ["9", "2", "9"] [9, 2, 9]
    (fun _ => true) (by decide) (by decide) rfl (fun _ => rfl)⟩

/-- C7: an input with zero records is not an error: the program succeeds,
the spill phase creates zero partition files, and the merge phase returns
immediately with an output file that exists and is empty, without opening or
deleting any partition. -/
theorem claim_c7_empty_input (self : Sorter) (delOk : String → Bool) :
    runMain self [] delOk = .ok ⟨[], [], 0⟩ ∧ spillGo self [] [] = [] :=
  ⟨rfl, rfl⟩

/-- C8: a successful run with N partitions deleted every one of the N
partition files by its known path (the deleted list is exactly the N
partition paths), and every deletion succeeded — a deletion failure would
have been propagated as a fatal error, making the run not successful. -/
theorem claim_c8_cleanup (self : Sorter) (N : Nat) (readFile : Nat → List LineRead)
    (delOk : String → Bool) (o : MergeOutcome)
    (h : self.merge_files N readFile delOk = .ok o) :
    o.deleted = (List.range N).map self.get_temp_file_path ∧
    ∀ i, i < N → delOk (self.get_temp_file_path i) = true :=
  merge_files_ok_inv self N readFile delOk o h

theorem claim_c8_witness :
    (⟨[5], ["d/sort_temp_file_0.txt"], 1⟩ : MergeOutcome).deleted
      = (List.range 1).map (Sorter.get_temp_file_path ⟨"a", "d/o", 1⟩) ∧
    ∀ i, i < 1 →
      (fun _ => true : String → Bool)
        (Sorter.get_temp_file_path ⟨"a", "d/o", 1⟩ i) = true :=
  claim_c8_cleanup ⟨"a", "d/o", 1⟩ 1 (fun _ => [okLine 5]) (fun _ => true)
    ⟨[5], ["d/sort_temp_file_0.txt"], 1⟩ merge_files_eval_single

/-- C9: under the merge-loop invariant (at most one heap entry per partition
index, each entry a lower bound of its stream's remaining values, streams
without an entry exhausted, output so far sorted below all entries), each
pop-write-refill step pops a value that is a lower bound of every heap entry
and of every unconsumed stream value — the least unconsumed value overall —
and the invariant is preserved with the popped value appended to the
output, which therefore stays non-decreasing. -/
theorem claim_c9_invariant (streams streams2 : List (List LineRead))
    (heap heap2 : List (Nat × Nat)) (out : List Nat) (rem : List (List Nat))
    (v i : Nat) (hinv : MergeInv streams heap out rem)
    (hstep : mergeStep streams heap = .ok (some ((v, i), (streams2, heap2)))) :
    (∀ e ∈ heap, v ≤ e.1) ∧ (∀ j, ∀ x ∈ rem.getD j [], v ≤ x) ∧
    MergeInv streams2 heap2 (out ++ [v]) (rem.set i ((rem.getD i []).tail)) := by
  cases hpop : popMin heap with
  | none => simp [mergeStep, hpop] at hstep
  | some p =>
    obtain ⟨⟨num, idx⟩, h2⟩ := p
    obtain ⟨s2x, h2x, hstepx, hlenx, hinvx, hpermx, hminx, hminremx⟩ :=
      mergeStep_inv streams heap out rem num idx h2 hinv hpop
    rw [hstepx] at hstep
    simp only [Except.ok.injEq, Option.some.injEq, Prod.mk.injEq] at hstep
    obtain ⟨⟨hnv, hii⟩, hsx, hhx⟩ := hstep
    subst hnv; subst hii; subst hsx; subst hhx
    exact ⟨hminx, hminremx, hinvx⟩

theorem claim_c9_witness :
    (∀ e ∈ [((3 : Nat), (0 : Nat))], 3 ≤ e.1) ∧
    (∀ j, ∀ x ∈ ([[7]] : List (List Nat)).getD j [], 3 ≤ x) ∧
    MergeInv [[]] [(7, 0)] ([1] ++ [3])
      (([[7]] : List (List Nat)).set 0 ((([[7]] : List (List Nat)).getD 0 []).tail)) :=
  claim_c9_invariant [[okLine 7]] [[]] [(3, 0)] [(7, 0)] [1] [[7]] 3 0
    (by decide) rfl

/-- C10: the code does not enforce a positive batch size: with batch size 0
the capacity check `len >= 0` holds after every push, so the spiller flushes
one single-record partition per input record; the program still terminates
and (with all deletions succeeding) the output is still the correctly sorted
multiset of the input. -/
theorem claim_c10_batch_zero (self : Sorter) (lines : List String)
    (ns : List Nat) (delOk : String → Bool) (h0 : self.batch = 0)
    (hp : parseAll lines = .ok ns) (hd : ∀ s, delOk s = true) :
    spillGo self [] ns = ns.map (fun n => [n]) ∧
    ∃ o, runMain self lines delOk = .ok o ∧
      List.Sorted (· ≤ ·) o.output ∧ o.output.Perm ns := by
  refine ⟨spillGo_batch0 self h0 ns, ?_⟩
  obtain ⟨out, h1, h2, h3⟩ := runMain_correct self lines ns delOk hp hd
  exact ⟨_, h1, h2, h3⟩

theorem claim_c10_witness :
    spillGo ⟨"a", "d/o", 0⟩ [] [2, 1] = [[2], [1]] ∧
    ∃ o, runMain ⟨"a", "d/o", 0⟩ ["2", "1"] (fun _ => true) = .ok o ∧
      List.Sorted (· ≤ ·) o.output ∧ o.output.Perm [2, 1] :=
  claim_c10_batch_zero ⟨"a", "d/o", 0⟩ ["2", "1"] [2, 1] (fun _ => true)
    rfl rfl (fun _ => rfl)


end ExtSorter
